import Mathlib

/-!
Verification of the batch SVG-to-PNG converter `to-png.py`.

The script is embedded shallowly: the filesystem is an association list
from file names to byte contents (most recent write first), the external
rasterization capability (`cairosvg.svg2png`) is an abstract function from
SVG bytes to an optional PNG byte string (`none` models any failure:
missing input, malformed SVG, I/O error), and a run is a state-passing
fold that records the console lines printed, the rasterization calls made,
and the files written, together with a flag telling whether the run
completed normally or was aborted by an exception from the library call.
-/

namespace SvgToPng

/-- Byte contents of a file, modelled as a list of bytes. -/
abbrev Bytes := List Nat

/-- A filesystem: an association list from file names to contents.
The most recent write is at the head, so reading scans left to right. -/
abbrev Fs := List (String × Bytes)

/-- Read a file: return the contents of the first entry with that name. -/
def Fs.read : Fs → String → Option Bytes
  | [], _ => none
  | (n, b) :: fs, name => if n = name then some b else Fs.read fs name

/-- Write a file: prepend a new entry, shadowing any previous one. -/
def Fs.write (fs : Fs) (name : String) (b : Bytes) : Fs :=
  (name, b) :: fs

/-- The external rasterization capability, as a black box: SVG bytes in,
PNG bytes out, `none` on any failure. It is deterministic by construction
(it is a function). -/
abbrev Rasterizer := Bytes → Option Bytes

/-- Line 11 of `to-png.py`: the input filename derived from index `i`. -/
def inputFile (i : Int) : String :=
  "child_" ++ toString i ++ ".svg"

/-- Line 12 of `to-png.py`: the output filename derived from index `i`. -/
def outputFile (i : Int) : String :=
  "pattern_" ++ toString i ++ ".png"

/-- Line 8 of `to-png.py`: the start banner printed before the loop. -/
def banner (s e : Int) : String :=
  "⏳ Converting " ++ toString s ++ " to " ++ toString e ++ "..."

/-- Line 16 of `to-png.py`: the per-file success line. -/
def convLine (i : Int) : String :=
  "✅ Converted " ++ inputFile i ++ " to " ++ outputFile i

/-- Line 18 of `to-png.py`: the completion line. -/
def doneLine : String := "✅ Done!"

/-- Observable state of a run: the filesystem, the console transcript
(oldest line first) and the list of rasterization invocations made so far,
each recorded as the pair (url argument, write target argument). -/
structure RunState where
  fs : Fs
  console : List String
  calls : List (String × String)
deriving DecidableEq, Repr

/-- Line 14 of `to-png.py`: `cairosvg.svg2png(url=..., write_to=...)`,
reduced to its observable effect. It reads the file at `url` from the
filesystem and rasterizes it; the result is the PNG bytes to be written
to the target, or `none` if the input is missing or the rasterizer fails. -/
def svg2png (rast : Rasterizer) (fs : Fs) (url : String) : Option Bytes :=
  (Fs.read fs url).bind rast

/-- Lines 10-16 of `to-png.py`: the `for i in range(start, end + 1)` loop,
with the iteration count made explicit as fuel `n` (Python's `range`
iterates `max 0 (end + 1 - start)` times). Each iteration records the
rasterization call, then either aborts the whole run (the exception
propagates: `false`) or writes the PNG, prints the success line and
continues with `i + 1`. -/
def convLoop (rast : Rasterizer) : Nat → Int → RunState → RunState × Bool
  | 0, _, st => (st, true)
  | n + 1, i, st =>
    match svg2png rast st.fs (inputFile i) with
    | none => ({ st with calls := st.calls ++ [(inputFile i, outputFile i)] }, false)
    | some png =>
      convLoop rast n (i + 1)
        { fs := Fs.write st.fs (outputFile i) png
          console := st.console ++ [convLine i]
          calls := st.calls ++ [(inputFile i, outputFile i)] }

/-- Lines 4-18 of `to-png.py`: `main`, generalized over the range bounds
as the spec directs. Prints the banner, runs the loop over
`range(start, end + 1)`, and prints the completion line only if the loop
finished without an exception. The Boolean tells whether the run
completed (`true`) or was aborted by a failed conversion (`false`). -/
def mainRun (rast : Rasterizer) (s e : Int) (fs0 : Fs) : RunState × Bool :=
  let r := convLoop rast (e + 1 - s).toNat s { fs := fs0, console := [banner s e], calls := [] }
  if r.2 then ({ r.1 with console := r.1.console ++ [doneLine] }, true) else r

/-- Line 5 of `to-png.py`: the compiled-in constant `start`. -/
def start : Int := 5

/-- Line 6 of `to-png.py`: the compiled-in constant `end`. -/
def end_ : Int := 30

/-- The reference `main()` exactly as compiled: the fixed range 5..30. -/
def mainScript (rast : Rasterizer) (fs0 : Fs) : RunState × Bool :=
  mainRun rast start end_ fs0

/-- Line 21 of `to-png.py`: the module's top level calls `main()`
unconditionally, with no `__main__` guard, so importing the module
performs the whole batch run. -/
def importModule (rast : Rasterizer) (fs0 : Fs) : RunState × Bool :=
  mainScript rast fs0

/-- The outcome of the rasterization step at index `i`, as determined by
the filesystem `fs0`: read `inputFile i` and rasterize it. -/
def step (rast : Rasterizer) (fs0 : Fs) (i : Int) : Option Bytes :=
  svg2png rast fs0 (inputFile i)

/-- The calls the loop makes over `n` consecutive indices from `i`. -/
def fullCalls (n : Nat) (i : Int) : List (String × String) :=
  (List.range n).map (fun k : Nat => (inputFile (i + (k : Int)), outputFile (i + (k : Int))))

/-- The success lines the loop prints over `n` consecutive indices. -/
def fullLines (n : Nat) (i : Int) : List String :=
  (List.range n).map (fun k : Nat => convLine (i + (k : Int)))

/-- The filesystem entries the loop prepends over `n` consecutive
successful indices from `i` (most recent write first). -/
def writesOf (rast : Rasterizer) (fs0 : Fs) : Nat → Int → List (String × Bytes)
  | 0, _ => []
  | n + 1, i => writesOf rast fs0 n (i + 1) ++ [(outputFile i, (step rast fs0 i).getD [])]

/-! Concrete fixtures used to evaluate the theorems on actual runs: a
rasterizer that always succeeds, and small filesystems. -/

/-- A concrete rasterizer that succeeds on every input. -/
def wRast : Rasterizer := fun b => some (0 :: b)

/-- Input files for indices 1 and 2. -/
def wFs : Fs := [("child_1.svg", [1]), ("child_2.svg", [2])]

/-- Input file for index 1 only: index 2 is missing. -/
def wFs2 : Fs := [("child_1.svg", [7])]

/-- Input files for every index of the reference range 5..30. -/
def wFsBig : Fs := (List.range 26).map (fun k : Nat => (inputFile (5 + (k : Int)), ([] : Bytes)))

/-- Input files for the negative indices -3, -2, -1. -/
def wFsNeg : Fs :=
  [("child_-3.svg", []), ("child_-2.svg", []), ("child_-1.svg", [])]

/-! Decimal representation: `Nat.repr` is fuel-based, so we first relate
it to a structurally recursive presentation and prove it injective, which
is what makes the derived filenames distinct for distinct indices. -/

/-- Structural presentation of the decimal digit list of a natural number. -/
def digitsRec (n : Nat) : List Char :=
  if n < 10 then [Nat.digitChar n]
  else digitsRec (n / 10) ++ [Nat.digitChar (n % 10)]
termination_by n
decreasing_by omega

lemma digitsRec_lt {n : Nat} (h : n < 10) : digitsRec n = [Nat.digitChar n] := by
  rw [digitsRec, if_pos h]

lemma digitsRec_ge {n : Nat} (h : ¬ n < 10) :
    digitsRec n = digitsRec (n / 10) ++ [Nat.digitChar (n % 10)] := by
  rw [digitsRec]
  exact if_neg h

lemma digitsRec_ne_nil (n : Nat) : digitsRec n ≠ [] := by
  by_cases h : n < 10
  · rw [digitsRec_lt h]
    simp
  · rw [digitsRec_ge h]
    simp

lemma digitChar_inj_fin : ∀ a b : Fin 10, Nat.digitChar a.val = Nat.digitChar b.val → a = b := by
  decide

lemma digitChar_inj {a b : Nat} (ha : a < 10) (hb : b < 10)
    (h : Nat.digitChar a = Nat.digitChar b) : a = b :=
  congrArg Fin.val (digitChar_inj_fin ⟨a, ha⟩ ⟨b, hb⟩ h)

lemma digitChar_ne_dash_fin : ∀ a : Fin 10, Nat.digitChar a.val ≠ '-' := by
  decide

lemma toDigitsCore_eq (n : Nat) : ∀ (fuel : Nat) (ds : List Char), n < fuel →
    Nat.toDigitsCore 10 fuel n ds = digitsRec n ++ ds := by
  induction n using Nat.strong_induction_on with
  | _ n ih =>
    intro fuel ds hf
    match fuel with
    | 0 => omega
    | f + 1 =>
      rw [Nat.toDigitsCore]
      by_cases h : n < 10
      · have h0 : n / 10 = 0 := by omega
        have hm : n % 10 = n := by omega
        simp [h0, hm, digitsRec_lt h]
      · have h0 : ¬ n / 10 = 0 := by omega
        rw [if_neg h0]
        rw [ih (n / 10) (by omega) f (Nat.digitChar (n % 10) :: ds) (by omega)]
        rw [digitsRec_ge h]
        simp

lemma toDigits_eq (n : Nat) : Nat.toDigits 10 n = digitsRec n := by
  rw [Nat.toDigits, toDigitsCore_eq n (n + 1) [] (by omega)]
  simp

lemma repr_data (n : Nat) : (Nat.repr n).data = digitsRec n :=
  toDigits_eq n

lemma repr_inj {m n : Nat} (h : Nat.repr m = Nat.repr n) : m = n := by
  have h2 := congrArg String.data h
  rw [repr_data, repr_data] at h2
  clear h
  induction m using Nat.strong_induction_on generalizing n with
  | _ m ih =>
    by_cases hm : m < 10 <;> by_cases hn : n < 10
    · rw [digitsRec_lt hm, digitsRec_lt hn] at h2
      simp only [List.cons.injEq, and_true] at h2
      exact digitChar_inj hm hn h2
    · rw [digitsRec_lt hm, digitsRec_ge hn] at h2
      have hl := congrArg List.length h2
      simp only [List.length_cons, List.length_append, List.length_nil] at hl
      have hz : (digitsRec (n / 10)).length = 0 := by omega
      exact absurd (List.length_eq_zero.mp hz) (digitsRec_ne_nil _)
    · rw [digitsRec_ge hm, digitsRec_lt hn] at h2
      have hl := congrArg List.length h2
      simp only [List.length_cons, List.length_append, List.length_nil] at hl
      have hz : (digitsRec (m / 10)).length = 0 := by omega
      exact absurd (List.length_eq_zero.mp hz) (digitsRec_ne_nil _)
    · rw [digitsRec_ge hm, digitsRec_ge hn] at h2
      have h3 := congrArg List.reverse h2
      simp only [List.reverse_append, List.reverse_cons, List.reverse_nil,
        List.nil_append, List.cons_append, List.cons.injEq] at h3
      obtain ⟨hd, hrev⟩ := h3
      have hmod : m % 10 = n % 10 := digitChar_inj (by omega) (by omega) hd
      have hdiv : m / 10 = n / 10 :=
        ih (m / 10) (by omega) (List.reverse_injective hrev)
      omega

lemma digitsRec_head_ne_dash (n : Nat) : ∀ c l, digitsRec n = c :: l → c ≠ '-' := by
  induction n using Nat.strong_induction_on with
  | _ n ih =>
    intro c l hcl
    by_cases h : n < 10
    · rw [digitsRec_lt h] at hcl
      simp only [List.cons.injEq] at hcl
      rw [← hcl.1]
      exact digitChar_ne_dash_fin ⟨n, h⟩
    · rw [digitsRec_ge h] at hcl
      cases hd : digitsRec (n / 10) with
      | nil => exact absurd hd (digitsRec_ne_nil _)
      | cons c2 l2 =>
        rw [hd, List.cons_append, List.cons.injEq] at hcl
        rw [← hcl.1]
        exact ih (n / 10) (by omega) c2 l2 hd

lemma repr_data_ne_dash_cons (n : Nat) (l : List Char) : (Nat.repr n).data ≠ '-' :: l := by
  intro h
  rw [repr_data] at h
  exact digitsRec_head_ne_dash n '-' l h rfl

lemma toString_int_inj {a b : Int} (h : toString a = toString b) : a = b := by
  cases a with
  | ofNat m =>
    cases b with
    | ofNat n => exact congrArg Int.ofNat (repr_inj h)
    | negSucc n =>
      exfalso
      have h2 := congrArg String.data h
      rw [show toString (Int.negSucc n) = "-" ++ Nat.repr (n + 1) from rfl,
        String.data_append] at h2
      exact repr_data_ne_dash_cons m _ h2
  | negSucc m =>
    cases b with
    | ofNat n =>
      exfalso
      have h2 := congrArg String.data h.symm
      rw [show toString (Int.negSucc m) = "-" ++ Nat.repr (m + 1) from rfl,
        String.data_append] at h2
      exact repr_data_ne_dash_cons n _ h2
    | negSucc n =>
      have h2 := congrArg String.data h
      rw [show toString (Int.negSucc m) = "-" ++ Nat.repr (m + 1) from rfl,
        show toString (Int.negSucc n) = "-" ++ Nat.repr (n + 1) from rfl,
        String.data_append, String.data_append] at h2
      have h3 := List.append_cancel_left h2
      have h4 := repr_inj (String.ext h3)
      have h5 : m = n := by omega
      rw [h5]

lemma wrap_inj (p q : String) {i j : Int}
    (h : p ++ toString i ++ q = p ++ toString j ++ q) : i = j := by
  apply toString_int_inj
  apply String.ext
  have h2 := congrArg String.data h
  rw [String.data_append, String.data_append, String.data_append,
    String.data_append] at h2
  exact List.append_cancel_left (List.append_cancel_right h2)

lemma inputFile_inj {i j : Int} (h : inputFile i = inputFile j) : i = j :=
  wrap_inj "child_" ".svg" h

lemma outputFile_inj {i j : Int} (h : outputFile i = outputFile j) : i = j :=
  wrap_inj "pattern_" ".png" h

lemma outputFile_ne_inputFile (i j : Int) : outputFile i ≠ inputFile j := by
  intro h
  have h2 := congrArg String.data h
  simp only [outputFile, inputFile, String.data_append, List.cons_append,
    List.nil_append] at h2
  injection h2 with h3 _
  exact absurd h3 (by decide)

lemma convLine_ne_doneLine (i : Int) : convLine i ≠ doneLine := by
  intro h
  have h2 := congrArg String.data h
  simp only [convLine, doneLine, String.data_append, List.cons_append,
    List.nil_append] at h2
  injection h2 with _ h2
  injection h2 with _ h2
  injection h2 with h3 _
  exact absurd h3 (by decide)

lemma banner_ne_doneLine (s e : Int) : banner s e ≠ doneLine := by
  intro h
  have h2 := congrArg String.data h
  simp only [banner, doneLine, String.data_append, List.cons_append,
    List.nil_append] at h2
  injection h2 with h3 _
  exact absurd h3 (by decide)

/-! Filesystem reading lemmas. -/

lemma Fs.read_append_some {A : Fs} {name : String} {v : Bytes}
    (h : Fs.read A name = some v) (B : Fs) : Fs.read (A ++ B) name = some v := by
  induction A with
  | nil => exact absurd h (by simp [Fs.read])
  | cons p A ih =>
    obtain ⟨n, b⟩ := p
    by_cases hn : n = name
    · rw [Fs.read, if_pos hn] at h
      rw [List.cons_append, Fs.read, if_pos hn]
      exact h
    · rw [Fs.read, if_neg hn] at h
      rw [List.cons_append, Fs.read, if_neg hn]
      exact ih h

lemma Fs.read_append_none {A : Fs} {name : String}
    (h : Fs.read A name = none) (B : Fs) : Fs.read (A ++ B) name = Fs.read B name := by
  induction A with
  | nil => rfl
  | cons p A ih =>
    obtain ⟨n, b⟩ := p
    by_cases hn : n = name
    · rw [Fs.read, if_pos hn] at h
      exact absurd h (by simp)
    · rw [Fs.read, if_neg hn] at h
      rw [List.cons_append, Fs.read, if_neg hn]
      exact ih h

lemma Fs.read_of_forall_ne {A : Fs} {name : String}
    (h : ∀ p ∈ A, p.1 ≠ name) : Fs.read A name = none := by
  induction A with
  | nil => rfl
  | cons p A ih =>
    obtain ⟨n, b⟩ := p
    rw [Fs.read, if_neg (h (n, b) (by simp))]
    exact ih fun q hq => h q (by simp [hq])

lemma Fs.read_append_self (A B : Fs) (name : String) :
    Fs.read (A ++ (A ++ B)) name = Fs.read (A ++ B) name := by
  cases h : Fs.read A name with
  | none => rw [Fs.read_append_none h]
  | some v => rw [Fs.read_append_some h, Fs.read_append_some h]

/-! Shape lemmas for the per-index bookkeeping lists. -/

lemma fullCalls_zero (i : Int) : fullCalls 0 i = [] := rfl

lemma fullLines_zero (i : Int) : fullLines 0 i = [] := rfl

lemma fullCalls_succ (n : Nat) (i : Int) :
    fullCalls (n + 1) i = (inputFile i, outputFile i) :: fullCalls n (i + 1) := by
  rw [fullCalls, fullCalls, List.range_succ_eq_map, List.map_cons, List.map_map]
  refine congrArg₂ List.cons (by simp) ?_
  refine List.map_congr_left fun k _ => ?_
  simp only [Function.comp_apply]
  rw [show i + ((k + 1 : Nat) : Int) = (i + 1) + (k : Int) by push_cast; ring]

lemma fullLines_succ (n : Nat) (i : Int) :
    fullLines (n + 1) i = convLine i :: fullLines n (i + 1) := by
  rw [fullLines, fullLines, List.range_succ_eq_map, List.map_cons, List.map_map]
  refine congrArg₂ List.cons (by simp) ?_
  refine List.map_congr_left fun k _ => ?_
  simp only [Function.comp_apply]
  rw [show i + ((k + 1 : Nat) : Int) = (i + 1) + (k : Int) by push_cast; ring]

lemma fullCalls_length (n : Nat) (i : Int) : (fullCalls n i).length = n := by
  simp [fullCalls]

lemma mem_fullCalls {p : String × String} {n : Nat} {i : Int} :
    p ∈ fullCalls n i ↔ ∃ k : Nat, k < n ∧ p = (inputFile (i + k), outputFile (i + k)) := by
  simp only [fullCalls, List.mem_map, List.mem_range]
  constructor
  · rintro ⟨k, hk, rfl⟩
    exact ⟨k, hk, rfl⟩
  · rintro ⟨k, hk, rfl⟩
    exact ⟨k, hk, rfl⟩

lemma fullCalls_isPrefix {m n : Nat} (i : Int) (h : m ≤ n) :
    fullCalls m i <+: fullCalls n i := by
  rw [fullCalls, fullCalls]
  rw [show List.range m = (List.range n).take m by
    rw [List.take_range, Nat.min_eq_left h]]
  rw [List.map_take]
  exact List.take_prefix _ _

/-! Keys and contents of the files written by the loop. -/

lemma writesOf_keys (rast : Rasterizer) (fs0 : Fs) :
    ∀ (n : Nat) (i : Int) (p : String × Bytes), p ∈ writesOf rast fs0 n i →
      ∃ k : Nat, k < n ∧ p.1 = outputFile (i + k) := by
  intro n
  induction n with
  | zero => intro i p hp; exact absurd hp (by simp [writesOf])
  | succ n ih =>
    intro i p hp
    rw [writesOf] at hp
    rcases List.mem_append.mp hp with h | h
    · obtain ⟨k, hk, hp1⟩ := ih (i + 1) p h
      refine ⟨k + 1, by omega, ?_⟩
      rw [hp1, show (i + 1) + (k : Int) = i + ((k + 1 : Nat) : Int) by push_cast; ring]
    · refine ⟨0, by omega, ?_⟩
      simp only [List.mem_singleton] at h
      rw [h]
      simp

lemma read_writesOf_out (rast : Rasterizer) (fs0 : Fs) (n : Nat) (i : Int) (fs : Fs)
    (j : Int) (hj : ∀ k : Nat, k < n → j ≠ i + (k : Int)) :
    Fs.read (writesOf rast fs0 n i ++ fs) (outputFile j) = Fs.read fs (outputFile j) := by
  apply Fs.read_append_none
  apply Fs.read_of_forall_ne
  intro p hp
  obtain ⟨k, hk, hp1⟩ := writesOf_keys rast fs0 n i p hp
  rw [hp1]
  intro hc
  exact hj k hk (outputFile_inj hc).symm

lemma read_writesOf_input (rast : Rasterizer) (fs0 : Fs) (n : Nat) (i : Int) (fs : Fs)
    (j : Int) :
    Fs.read (writesOf rast fs0 n i ++ fs) (inputFile j) = Fs.read fs (inputFile j) := by
  apply Fs.read_append_none
  apply Fs.read_of_forall_ne
  intro p hp
  obtain ⟨k, hk, hp1⟩ := writesOf_keys rast fs0 n i p hp
  rw [hp1]
  exact outputFile_ne_inputFile _ _

lemma read_writesOf_lt (rast : Rasterizer) (fs0 : Fs) :
    ∀ (n : Nat) (i : Int) (k : Nat) (fs : Fs), k < n →
      Fs.read (writesOf rast fs0 n i ++ fs) (outputFile (i + (k : Int))) =
        some ((step rast fs0 (i + (k : Int))).getD []) := by
  intro n
  induction n with
  | zero => intro i k fs hk; omega
  | succ n ih =>
    intro i k fs hk
    rw [writesOf, List.append_assoc]
    cases k with
    | zero =>
      have hnone :
          Fs.read (writesOf rast fs0 n (i + 1)) (outputFile (i + ((0 : Nat) : Int))) = none := by
        apply Fs.read_of_forall_ne
        intro p hp
        obtain ⟨k2, hk2, hp1⟩ := writesOf_keys rast fs0 n (i + 1) p hp
        rw [hp1]
        intro hc
        have h3 := outputFile_inj hc
        omega
      rw [Fs.read_append_none hnone, List.singleton_append,
        show i + ((0 : Nat) : Int) = i by simp, Fs.read, if_pos rfl]
    | succ k2 =>
      rw [show i + ((k2 + 1 : Nat) : Int) = (i + 1) + (k2 : Int) by push_cast; ring]
      exact ih (i + 1) k2 _ (by omega)

/-! One-step unfolding of the loop. -/

lemma convLoop_none {rast : Rasterizer} {n : Nat} {i : Int} {st : RunState}
    (h : svg2png rast st.fs (inputFile i) = none) :
    convLoop rast (n + 1) i st =
      ({ st with calls := st.calls ++ [(inputFile i, outputFile i)] }, false) := by
  rw [convLoop, h]

lemma convLoop_some {rast : Rasterizer} {n : Nat} {i : Int} {st : RunState} {png : Bytes}
    (h : svg2png rast st.fs (inputFile i) = some png) :
    convLoop rast (n + 1) i st =
      convLoop rast n (i + 1)
        { fs := Fs.write st.fs (outputFile i) png
          console := st.console ++ [convLine i]
          calls := st.calls ++ [(inputFile i, outputFile i)] } := by
  rw [convLoop, h]

lemma svg2png_congr {rast : Rasterizer} {fs1 fs0 : Fs} {i : Int}
    (h : Fs.read fs1 (inputFile i) = Fs.read fs0 (inputFile i)) :
    svg2png rast fs1 (inputFile i) = step rast fs0 i := by
  unfold step svg2png
  rw [h]

/-- Total characterization of the loop relative to a reference filesystem
`fs0` that agrees with the running filesystem on every input file: either
every rasterization step succeeds and the loop completes, or it aborts at
the first failing index, having recorded that call but printed and written
nothing for it. -/
lemma convLoop_spec (rast : Rasterizer) (fs0 : Fs) :
    ∀ (n : Nat) (i : Int) (st : RunState),
      (∀ j : Int, Fs.read st.fs (inputFile j) = Fs.read fs0 (inputFile j)) →
      ((∀ k : Nat, k < n → step rast fs0 (i + (k : Int)) ≠ none) ∧
        convLoop rast n i st =
          ({ fs := writesOf rast fs0 n i ++ st.fs,
             console := st.console ++ fullLines n i,
             calls := st.calls ++ fullCalls n i }, true)) ∨
      (∃ m : Nat, m < n ∧ (∀ k : Nat, k < m → step rast fs0 (i + (k : Int)) ≠ none) ∧
        step rast fs0 (i + (m : Int)) = none ∧
        convLoop rast n i st =
          ({ fs := writesOf rast fs0 m i ++ st.fs,
             console := st.console ++ fullLines m i,
             calls := st.calls ++ fullCalls (m + 1) i }, false)) := by
  intro n
  induction n with
  | zero =>
    intro i st hinv
    left
    refine ⟨fun k hk => absurd hk (by omega), ?_⟩
    show (st, true) = _
    simp [writesOf, fullLines_zero, fullCalls_zero]
  | succ n ih =>
    intro i st hinv
    cases hstep : step rast fs0 i with
    | none =>
      right
      refine ⟨0, by omega, fun k hk => absurd hk (by omega), ?_, ?_⟩
      · rw [show i + ((0 : Nat) : Int) = i by simp]
        exact hstep
      · rw [convLoop_none ((svg2png_congr (hinv i)).trans hstep)]
        simp [writesOf, fullLines_zero, fullCalls_succ, fullCalls_zero]
    | some png =>
      have hsome : svg2png rast st.fs (inputFile i) = some png :=
        (svg2png_congr (hinv i)).trans hstep
      have hinv2 : ∀ j : Int,
          Fs.read (Fs.write st.fs (outputFile i) png) (inputFile j) =
            Fs.read fs0 (inputFile j) := by
        intro j
        rw [Fs.write, Fs.read, if_neg (outputFile_ne_inputFile i j)]
        exact hinv j
      rcases ih (i + 1)
          { fs := Fs.write st.fs (outputFile i) png
            console := st.console ++ [convLine i]
            calls := st.calls ++ [(inputFile i, outputFile i)] } hinv2 with
        ⟨hsucc, heq⟩ | ⟨m, hm, hbef, hfail, heq⟩
      · left
        constructor
        · intro k hk
          cases k with
          | zero =>
            rw [show i + ((0 : Nat) : Int) = i by simp, hstep]
            simp
          | succ k2 =>
            rw [show i + ((k2 + 1 : Nat) : Int) = (i + 1) + (k2 : Int) by push_cast; ring]
            exact hsucc k2 (by omega)
        · rw [convLoop_some hsome, heq]
          simp only [writesOf, hstep, Option.getD_some, fullLines_succ, fullCalls_succ,
            Fs.write, List.append_assoc, List.singleton_append, List.cons_append,
            List.nil_append]
      · right
        refine ⟨m + 1, by omega, ?_, ?_, ?_⟩
        · intro k hk
          cases k with
          | zero =>
            rw [show i + ((0 : Nat) : Int) = i by simp, hstep]
            simp
          | succ k2 =>
            rw [show i + ((k2 + 1 : Nat) : Int) = (i + 1) + (k2 : Int) by push_cast; ring]
            exact hbef k2 (by omega)
        · rw [show i + ((m + 1 : Nat) : Int) = (i + 1) + (m : Int) by push_cast; ring]
          exact hfail
        · rw [convLoop_some hsome, heq]
          simp only [writesOf, hstep, Option.getD_some, fullLines_succ, fullCalls_succ,
            Fs.write, List.append_assoc, List.singleton_append, List.cons_append,
            List.nil_append]

/-- Total characterization of a whole run started on filesystem `fs1`,
stated relative to any reference filesystem `fs0` that agrees with `fs1`
on every input file (instantiating `fs0 := fs1` gives the plain form).
Python's `range(start, end + 1)` iterates `(end + 1 - start).toNat`
times. -/
lemma mainRun_spec2 (rast : Rasterizer) (s e : Int) (fs1 fs0 : Fs)
    (hagree : ∀ j : Int, Fs.read fs1 (inputFile j) = Fs.read fs0 (inputFile j)) :
    ((∀ k : Nat, k < (e + 1 - s).toNat → step rast fs0 (s + (k : Int)) ≠ none) ∧
      mainRun rast s e fs1 =
        ({ fs := writesOf rast fs0 (e + 1 - s).toNat s ++ fs1,
           console := banner s e :: (fullLines (e + 1 - s).toNat s ++ [doneLine]),
           calls := fullCalls (e + 1 - s).toNat s }, true)) ∨
    (∃ m : Nat, m < (e + 1 - s).toNat ∧
      (∀ k : Nat, k < m → step rast fs0 (s + (k : Int)) ≠ none) ∧
      step rast fs0 (s + (m : Int)) = none ∧
      mainRun rast s e fs1 =
        ({ fs := writesOf rast fs0 m s ++ fs1,
           console := banner s e :: fullLines m s,
           calls := fullCalls (m + 1) s }, false)) := by
  rcases convLoop_spec rast fs0 (e + 1 - s).toNat s
      { fs := fs1, console := [banner s e], calls := [] } hagree with
    ⟨hsucc, heq⟩ | ⟨m, hm, hbef, hfail, heq⟩
  · left
    refine ⟨hsucc, ?_⟩
    rw [mainRun]
    rw [heq]
    simp [List.append_assoc]
  · right
    refine ⟨m, hm, hbef, hfail, ?_⟩
    rw [mainRun]
    rw [heq]
    simp [List.append_assoc]

/-- Plain form: the reference filesystem is the starting one. -/
lemma mainRun_spec (rast : Rasterizer) (s e : Int) (fs0 : Fs) :
    ((∀ k : Nat, k < (e + 1 - s).toNat → step rast fs0 (s + (k : Int)) ≠ none) ∧
      mainRun rast s e fs0 =
        ({ fs := writesOf rast fs0 (e + 1 - s).toNat s ++ fs0,
           console := banner s e :: (fullLines (e + 1 - s).toNat s ++ [doneLine]),
           calls := fullCalls (e + 1 - s).toNat s }, true)) ∨
    (∃ m : Nat, m < (e + 1 - s).toNat ∧
      (∀ k : Nat, k < m → step rast fs0 (s + (k : Int)) ≠ none) ∧
      step rast fs0 (s + (m : Int)) = none ∧
      mainRun rast s e fs0 =
        ({ fs := writesOf rast fs0 m s ++ fs0,
           console := banner s e :: fullLines m s,
           calls := fullCalls (m + 1) s }, false)) :=
  mainRun_spec2 rast s e fs0 fs0 fun _ => rfl

/-- A run that completed made exactly the calls for the whole range. -/
lemma mainRun_calls_of_ok {rast : Rasterizer} {s e : Int} {fs0 : Fs}
    (hok : (mainRun rast s e fs0).2 = true) :
    (mainRun rast s e fs0).1.calls = fullCalls (e + 1 - s).toNat s := by
  rcases mainRun_spec rast s e fs0 with ⟨_, heq⟩ | ⟨m, _, _, _, heq⟩
  · rw [heq]
  · rw [heq] at hok
    exact absurd hok (by simp)

/-- Any run's calls form a prefix of the full ascending call list. -/
lemma mainRun_calls_isPrefix (rast : Rasterizer) (s e : Int) (fs0 : Fs) :
    (mainRun rast s e fs0).1.calls <+: fullCalls (e + 1 - s).toNat s := by
  rcases mainRun_spec rast s e fs0 with ⟨_, heq⟩ | ⟨m, hm, _, _, heq⟩
  · rw [heq]
  · rw [heq]
    exact fullCalls_isPrefix s (by omega)

/-- If every index in the inclusive range rasterizes successfully, the run
completes and its whole observable behaviour is determined. -/
lemma mainRun_of_success (rast : Rasterizer) (s e : Int) (fs0 : Fs)
    (h : ∀ i : Int, s ≤ i → i ≤ e → step rast fs0 i ≠ none) :
    mainRun rast s e fs0 =
      ({ fs := writesOf rast fs0 (e + 1 - s).toNat s ++ fs0,
         console := banner s e :: (fullLines (e + 1 - s).toNat s ++ [doneLine]),
         calls := fullCalls (e + 1 - s).toNat s }, true) := by
  rcases mainRun_spec rast s e fs0 with ⟨_, heq⟩ | ⟨m, hm, _, hfail, _⟩
  · exact heq
  · exact absurd hfail (h (s + (m : Int)) (by omega) (by omega))

/-- C1: for every integer range with start ≤ end, a run of the batch
converter that completes invokes the external rasterization capability
exactly end - start + 1 times, once per integer in the inclusive range. -/
theorem conversion_count (rast : Rasterizer) (s e : Int) (fs0 : Fs)
    (h : s ≤ e) (hok : (mainRun rast s e fs0).2 = true) :
    ((mainRun rast s e fs0).1.calls.length : Int) = e - s + 1 := by
  rw [mainRun_calls_of_ok hok]
  rw [fullCalls_length]
  omega

/-- Witness for C1: the range 1..2 with both inputs present makes
exactly 2 calls. -/
theorem conversion_count_witness :
    (1 : Int) ≤ 2 ∧ (mainRun wRast 1 2 wFs).2 = true ∧
      ((mainRun wRast 1 2 wFs).1.calls.length : Int) = 2 - 1 + 1 :=
  ⟨by decide, by decide, conversion_count wRast 1 2 wFs (by decide) (by decide)⟩

/-- C2: every index the batch converter processes uses exactly the input
filename child_i.svg and the output filename pattern_i.png, with the
index in plain decimal (Lean's `toString` on `Int`, which is what the
embedding of Python's `"...{}...".format(i)` produces). -/
theorem filename_templates (rast : Rasterizer) (s e : Int) (fs0 : Fs)
    (p : String × String) (hp : p ∈ (mainRun rast s e fs0).1.calls) :
    ∃ i : Int, s ≤ i ∧ i ≤ e ∧
      p.1 = "child_" ++ toString i ++ ".svg" ∧
      p.2 = "pattern_" ++ toString i ++ ".png" := by
  have hp2 : p ∈ fullCalls (e + 1 - s).toNat s :=
    (mainRun_calls_isPrefix rast s e fs0).subset hp
  obtain ⟨k, hk, rfl⟩ := mem_fullCalls.mp hp2
  exact ⟨s + (k : Int), by omega, by omega, rfl, rfl⟩

/-- Witness for C2: the first call of the 1..2 run uses exactly these
filenames. -/
theorem filename_templates_witness :
    ("child_1.svg", "pattern_1.png") ∈ (mainRun wRast 1 2 wFs).1.calls ∧
      ∃ i : Int, 1 ≤ i ∧ i ≤ 2 ∧
        ("child_1.svg" : String) = "child_" ++ toString i ++ ".svg" ∧
        ("pattern_1.png" : String) = "pattern_" ++ toString i ++ ".png" :=
  ⟨by decide, filename_templates wRast 1 2 wFs ("child_1.svg", "pattern_1.png") (by decide)⟩

/-- C3: if rasterization fails at index j of the range while all earlier
indices succeed, the run aborts: it reports failure, every output below j
is present in the final filesystem, every output file from j on is
untouched, the console holds the banner and exactly the success lines for
indices below j, and the completion line is never printed. -/
theorem abort_on_failure (rast : Rasterizer) (s e : Int) (fs0 : Fs) (j : Int)
    (hj1 : s ≤ j) (hj2 : j ≤ e)
    (hbefore : ∀ i : Int, s ≤ i → i < j → step rast fs0 i ≠ none)
    (hfail : step rast fs0 j = none) :
    (mainRun rast s e fs0).2 = false ∧
    (∀ i : Int, s ≤ i → i < j →
      Fs.read (mainRun rast s e fs0).1.fs (outputFile i) =
        some ((step rast fs0 i).getD [])) ∧
    (∀ i : Int, j ≤ i →
      Fs.read (mainRun rast s e fs0).1.fs (outputFile i) =
        Fs.read fs0 (outputFile i)) ∧
    (mainRun rast s e fs0).1.console = banner s e :: fullLines (j - s).toNat s ∧
    doneLine ∉ (mainRun rast s e fs0).1.console := by
  rcases mainRun_spec rast s e fs0 with ⟨hsucc, _⟩ | ⟨m, hm, hbef2, hfail2, heq⟩
  · exfalso
    have h5 := hsucc (j - s).toNat (by omega)
    rw [show s + (((j - s).toNat : Nat) : Int) = j from by omega] at h5
    exact h5 hfail
  · have hmj : (m : Int) = j - s := by
      rcases lt_trichotomy (s + (m : Int)) j with h4 | h4 | h4
      · exact absurd hfail2 (hbefore (s + (m : Int)) (by omega) h4)
      · omega
      · exfalso
        have h5 := hbef2 (j - s).toNat (by omega)
        rw [show s + (((j - s).toNat : Nat) : Int) = j from by omega] at h5
        exact h5 hfail
    have hmeq : m = (j - s).toNat := by omega
    subst hmeq
    refine ⟨by rw [heq], ?_, ?_, by rw [heq], ?_⟩
    · intro i hi1 hi2
      rw [heq]
      have h6 := read_writesOf_lt rast fs0 (j - s).toNat s (i - s).toNat fs0 (by omega)
      rwa [show s + (((i - s).toNat : Nat) : Int) = i from by omega] at h6
    · intro i hi
      rw [heq]
      exact read_writesOf_out rast fs0 (j - s).toNat s fs0 i (fun k hk => by omega)
    · rw [heq]
      intro hmem
      rcases List.mem_cons.mp hmem with h7 | h7
      · exact banner_ne_doneLine s e h7.symm
      · obtain ⟨k, _, h8⟩ := List.mem_map.mp h7
        exact convLine_ne_doneLine _ h8

/-- Witness for C3: range 1..3 with child_2.svg missing halts after
converting index 1: output pattern_1.png exists, pattern_2.png is
untouched, the console is the banner plus one success line, and the
completion line is absent. -/
theorem abort_on_failure_witness :
    (mainRun wRast 1 3 wFs2).2 = false ∧
    Fs.read (mainRun wRast 1 3 wFs2).1.fs (outputFile 1) =
      some ((step wRast wFs2 1).getD []) ∧
    Fs.read (mainRun wRast 1 3 wFs2).1.fs (outputFile 2) =
      Fs.read wFs2 (outputFile 2) ∧
    (mainRun wRast 1 3 wFs2).1.console = banner 1 3 :: fullLines ((2 : Int) - 1).toNat 1 ∧
    doneLine ∉ (mainRun wRast 1 3 wFs2).1.console := by
  obtain ⟨h1, h2, h3, h4, h5⟩ :=
    abort_on_failure wRast 1 3 wFs2 2 (by decide) (by decide)
      (fun i hi1 hi2 => by
        rw [show i = 1 from by omega]
        decide)
      (by decide)
  exact ⟨h1, h2 1 (by decide) (by decide), h3 2 (by decide), h4, h5⟩

/-- C4: the batch converter processes indices strictly ascending from
start to end: every run's call trace is a prefix of the full ascending
trace (each iteration completes before the next starts, by the
sequential state-passing of the loop), a completed run's trace is the
whole of it, and the underlying index order start, start+1, ... is
strictly increasing. -/
theorem processing_order (rast : Rasterizer) (s e : Int) (fs0 : Fs) :
    (mainRun rast s e fs0).1.calls <+: fullCalls (e + 1 - s).toNat s ∧
    ((mainRun rast s e fs0).2 = true →
      (mainRun rast s e fs0).1.calls = fullCalls (e + 1 - s).toNat s) ∧
    List.Pairwise (fun p q : Int => p < q)
      ((List.range (e + 1 - s).toNat).map (fun k : Nat => s + (k : Int))) ∧
    fullCalls (e + 1 - s).toNat s =
      ((List.range (e + 1 - s).toNat).map (fun k : Nat => s + (k : Int))).map
        (fun i => (inputFile i, outputFile i)) := by
  refine ⟨mainRun_calls_isPrefix rast s e fs0, fun hok => mainRun_calls_of_ok hok, ?_, ?_⟩
  · rw [List.pairwise_map]
    exact (List.pairwise_lt_range _).imp fun h => by omega
  · rw [List.map_map]
    rfl

/-- Witness for C4: the completed 1..2 run makes exactly the two calls in
ascending index order. -/
theorem processing_order_witness :
    (mainRun wRast 1 2 wFs).1.calls <+: fullCalls 2 1 ∧
    (mainRun wRast 1 2 wFs).1.calls = fullCalls 2 1 := by
  obtain ⟨h1, h2, _, _⟩ := processing_order wRast 1 2 wFs
  exact ⟨h1, h2 (by decide)⟩

/-- C5: when every conversion succeeds, the console is exactly one start
banner, then one success line per converted file in order, then the
completion line. -/
theorem console_output (rast : Rasterizer) (s e : Int) (fs0 : Fs)
    (hsucc : ∀ i : Int, s ≤ i → i ≤ e → step rast fs0 i ≠ none) :
    (mainRun rast s e fs0).1.console =
      banner s e :: (fullLines (e + 1 - s).toNat s ++ [doneLine]) := by
  rw [mainRun_of_success rast s e fs0 hsucc]

/-- Witness for C5: the 1..2 run prints the banner, two success lines and
the completion line. -/
theorem console_output_witness :
    (mainRun wRast 1 2 wFs).1.console =
      banner 1 2 :: (fullLines ((2 : Int) + 1 - 1).toNat 1 ++ [doneLine]) :=
  console_output wRast 1 2 wFs fun i h1 h2 => by
    rcases show i = 1 ∨ i = 2 from by omega with h | h <;> rw [h] <;> decide

/-- C6: boundary behaviour: a completed run with start = end makes exactly
one call, and a run with start > end makes no calls and prints no success
line, yet still prints the banner and the completion line and leaves the
filesystem unchanged. -/
theorem boundary_behaviour (rast : Rasterizer) (s e : Int) (fs0 : Fs) :
    (s = e → (mainRun rast s e fs0).2 = true → (mainRun rast s e fs0).1.calls.length = 1) ∧
    (e < s → mainRun rast s e fs0 =
      ({ fs := fs0, console := [banner s e, doneLine], calls := [] }, true)) := by
  constructor
  · intro hse hok
    rw [mainRun_calls_of_ok hok, fullCalls_length]
    omega
  · intro hlt
    have hn : (e + 1 - s).toNat = 0 := by omega
    rw [mainRun, hn]
    simp [convLoop]

/-- Witness for C6: the run 1..1 converts exactly one file; the run 2..1
converts nothing but still prints the banner and the completion line. -/
theorem boundary_behaviour_witness :
    (mainRun wRast 1 1 wFs).1.calls.length = 1 ∧
    mainRun wRast 2 1 wFs =
      ({ fs := wFs, console := [banner 2 1, doneLine], calls := [] }, true) :=
  ⟨(boundary_behaviour wRast 1 1 wFs).1 rfl (by decide),
   (boundary_behaviour wRast 2 1 wFs).2 (by decide)⟩

/-- C7: running the batch twice with unchanged inputs is deterministic
(the rasterizer is a function of the bytes it reads): the second run,
started on the filesystem the first run left behind, prints the same
console transcript, makes the same calls, ends with the same outcome, and
silently overwrites the outputs so that every file reads back exactly as
after the first run. -/
theorem idempotent_rerun (rast : Rasterizer) (s e : Int) (fs0 : Fs) :
    (mainRun rast s e (mainRun rast s e fs0).1.fs).1.console =
      (mainRun rast s e fs0).1.console ∧
    (mainRun rast s e (mainRun rast s e fs0).1.fs).1.calls =
      (mainRun rast s e fs0).1.calls ∧
    (mainRun rast s e (mainRun rast s e fs0).1.fs).2 = (mainRun rast s e fs0).2 ∧
    ∀ name : String,
      Fs.read (mainRun rast s e (mainRun rast s e fs0).1.fs).1.fs name =
        Fs.read (mainRun rast s e fs0).1.fs name := by
  rcases mainRun_spec rast s e fs0 with ⟨hsucc, heq1⟩ | ⟨m, hm, hbef, hfail, heq1⟩
  · have hagree : ∀ j : Int,
        Fs.read (mainRun rast s e fs0).1.fs (inputFile j) = Fs.read fs0 (inputFile j) := by
      intro j
      rw [heq1]
      exact read_writesOf_input rast fs0 _ s fs0 j
    rcases mainRun_spec2 rast s e (mainRun rast s e fs0).1.fs fs0 hagree with
      ⟨_, heq2⟩ | ⟨m2, hm2, _, hfail2, _⟩
    · refine ⟨?_, ?_, ?_, ?_⟩
      · rw [heq2, heq1]
      · rw [heq2, heq1]
      · rw [heq2, heq1]
      · intro name
        rw [heq2]
        show Fs.read (writesOf rast fs0 (e + 1 - s).toNat s ++ (mainRun rast s e fs0).1.fs)
            name = _
        rw [heq1]
        exact Fs.read_append_self _ _ name
    · exact absurd hfail2 (hsucc m2 hm2)
  · have hagree : ∀ j : Int,
        Fs.read (mainRun rast s e fs0).1.fs (inputFile j) = Fs.read fs0 (inputFile j) := by
      intro j
      rw [heq1]
      exact read_writesOf_input rast fs0 _ s fs0 j
    rcases mainRun_spec2 rast s e (mainRun rast s e fs0).1.fs fs0 hagree with
      ⟨hsucc2, _⟩ | ⟨m2, hm2, hbef2, hfail2, heq2⟩
    · exact absurd hfail (hsucc2 m hm)
    · have hm12 : m2 = m := by
        rcases lt_trichotomy m2 m with h4 | h4 | h4
        · exact absurd hfail2 (hbef m2 h4)
        · exact h4
        · exact absurd hfail (hbef2 m h4)
      subst hm12
      refine ⟨?_, ?_, ?_, ?_⟩
      · rw [heq2, heq1]
      · rw [heq2, heq1]
      · rw [heq2, heq1]
      · intro name
        rw [heq2]
        show Fs.read (writesOf rast fs0 m2 s ++ (mainRun rast s e fs0).1.fs) name = _
        rw [heq1]
        exact Fs.read_append_self _ _ name

/-- C8: the reference implementation fixes the range to the compiled-in
constants start = 5 and end = 30, which satisfy the range invariant
start ≤ end, so every completed run of the script processes exactly the
indices 5 through 30 in order. -/
theorem range_constants (rast : Rasterizer) (fs0 : Fs) :
    start = 5 ∧ end_ = 30 ∧ start ≤ end_ ∧
    ((mainScript rast fs0).2 = true →
      (mainScript rast fs0).1.calls =
        (List.range 26).map
          (fun k : Nat => (inputFile (5 + (k : Int)), outputFile (5 + (k : Int))))) := by
  refine ⟨rfl, rfl, by decide, fun hok => ?_⟩
  rw [show mainScript rast fs0 = mainRun rast start end_ fs0 from rfl] at hok ⊢
  rw [mainRun_calls_of_ok hok]
  rfl

/-- Witness for C8: with all 26 inputs present the script completes and
calls the rasterizer on exactly the indices 5..30. -/
theorem range_constants_witness :
    SvgToPng.start = 5 ∧ end_ = 30 ∧ SvgToPng.start ≤ end_ ∧
    (mainScript wRast wFsBig).1.calls =
      (List.range 26).map
        (fun k : Nat => (inputFile (5 + (k : Int)), outputFile (5 + (k : Int)))) :=
  ⟨(range_constants wRast wFsBig).1, (range_constants wRast wFsBig).2.1,
   (range_constants wRast wFsBig).2.2.1,
   (range_constants wRast wFsBig).2.2.2 (by decide)⟩

/-- C9: line 21 calls main() at module top level with no __main__ guard,
so loading the module is the same operation as running the batch, and it
always has observable side effects: the console transcript of an import
begins with the banner and is never empty. -/
theorem import_runs_batch (rast : Rasterizer) (fs0 : Fs) :
    importModule rast fs0 = mainScript rast fs0 ∧
    (importModule rast fs0).1.console.head? = some (banner 5 30) ∧
    (importModule rast fs0).1.console ≠ [] := by
  refine ⟨rfl, ?_, ?_⟩
  · rcases mainRun_spec rast start end_ fs0 with ⟨_, heq⟩ | ⟨m, _, _, _, heq⟩ <;>
      rw [show importModule rast fs0 = mainRun rast start end_ fs0 from rfl, heq] <;>
      rfl
  · rcases mainRun_spec rast start end_ fs0 with ⟨_, heq⟩ | ⟨m, _, _, _, heq⟩ <;>
      rw [show importModule rast fs0 = mainRun rast start end_ fs0 from rfl, heq] <;>
      exact List.cons_ne_nil _ _

/-- C10: nothing validates the stated precondition that the bounds be
non-negative: the loop is total on arbitrary integers and simply derives
filenames from the signed decimal representation, e.g. child_-3.svg for
index -3, instead of raising a precondition error. -/
theorem negative_range (rast : Rasterizer) (fs0 : Fs) :
    inputFile (-3) = "child_-3.svg" ∧
    outputFile (-3) = "pattern_-3.png" ∧
    (mainRun rast (-3) (-1) fs0).1.calls <+:
      [("child_-3.svg", "pattern_-3.png"), ("child_-2.svg", "pattern_-2.png"),
       ("child_-1.svg", "pattern_-1.png")] ∧
    ((mainRun rast (-3) (-1) fs0).2 = true →
      (mainRun rast (-3) (-1) fs0).1.calls =
        [("child_-3.svg", "pattern_-3.png"), ("child_-2.svg", "pattern_-2.png"),
         ("child_-1.svg", "pattern_-1.png")]) := by
  refine ⟨by decide, by decide, ?_, fun hok => ?_⟩
  · have h1 := mainRun_calls_isPrefix rast (-3) (-1) fs0
    rwa [show fullCalls ((-1 : Int) + 1 - (-3)).toNat (-3) =
      [("child_-3.svg", "pattern_-3.png"), ("child_-2.svg", "pattern_-2.png"),
       ("child_-1.svg", "pattern_-1.png")] from by decide] at h1
  · rw [mainRun_calls_of_ok hok]
    decide

/-- Witness for C10: a run over -3..-1 with those inputs present completes
and uses the signed decimal filenames. -/
theorem negative_range_witness :
    inputFile (-3) = "child_-3.svg" ∧
    (mainRun wRast (-3) (-1) wFsNeg).1.calls =
      [("child_-3.svg", "pattern_-3.png"), ("child_-2.svg", "pattern_-2.png"),
       ("child_-1.svg", "pattern_-1.png")] :=
  ⟨(negative_range wRast wFsNeg).1, (negative_range wRast wFsNeg).2.2.2 (by decide)⟩

end SvgToPng
